import Mathlib

/-!
Verification of the Music-visualizer render pipeline.

The definitions below are a shallow embedding of the TypeScript sources:

* `App.tsx` (`handleRenderVideo`): the offline encode/mux pipeline — frame
  schedule, spectral-sampling timestamps, the exponential smoothing update on a
  `Uint8Array`, the cooperative cancel check, and the error reporting path.
* `useCanvasRenderer` module: `getAudioAverages`, `initParticles`,
  `updateParticles`, `drawCircularVisualizer`, `drawText`.

JavaScript numbers are modelled as rationals (`ℚ`); the one place the code
quantizes (assignment into a `Uint8Array`) is modelled explicitly by `toUint8`.
Angles produced by the circular visualizer are all rational multiples of π and
are represented by their coefficient of π.
-/

/-- From `App.tsx` `handleRenderVideo`:
`const totalFrames = Math.floor(audioDuration * frameRate)`. -/
def totalFrames (audioDuration frameRate : ℚ) : ℕ :=
  (⌊audioDuration * frameRate⌋).toNat

/-- The spectral-sampling schedule of an uncancelled render: the loop
`for (let i = 0; i <= totalFrames; i++)` runs one offline-analyser sampling per
iteration at `const time = i / frameRate`.  The list holds, in loop order, the
timestamp of each invocation of the spectral sampler. -/
def sampleTimestamps (audioDuration frameRate : ℚ) : List ℚ :=
  (List.range (totalFrames audioDuration frameRate + 1)).map
    (fun (i : ℕ) => (i : ℚ) / frameRate)

/-- The message produced by the `catch` block of `handleRenderVideo`:
`setError(\x7bRendering failed: $(err.message). Check console for details.\x7d)`
(template braces elided). -/
def renderFailureMessage (cause : String) : String :=
  "Rendering failed: " ++ cause ++ ". Check console for details."

/-- Outcome of one render job of `handleRenderVideo`, as observed by the `App`
component: how many video frames were submitted to the encoder, whether
`muxer.finalize()` ran, whether a container blob was produced and offered for
download, and the value passed to `setError` (`none` when no error was set). -/
structure RenderResult where
  framesEncoded : ℕ
  muxerFinalized : Bool
  containerProduced : Bool
  errorMessage : Option String
deriving DecidableEq

/-- The frame loop of `handleRenderVideo` with its cooperative cancel check:
before the body of iteration `i` the code tests `!isRenderingRef.current` and
throws `Error("Render cancelled")` if the user cancelled.  `cancelled i` is the
value of that test at iteration `i`.  A throw lands in the `catch` block, which
calls `setError` with the generic failure message; `muxer.finalize()` and the
blob download only run after the loop completes all `totalFrames + 1`
iterations. -/
def runRender (total : ℕ) (cancelled : ℕ → Bool) : RenderResult :=
  match (List.range (total + 1)).find? (fun i => cancelled i) with
  | some i => ⟨i, false, false, some (renderFailureMessage "Render cancelled")⟩
  | none => ⟨total + 1, true, true, none⟩

/-- **C1.** For every audio duration `d` and frame rate `r > 0`, the render
pipeline computes `totalFrames = ⌊d * r⌋` and invokes the spectral sampling
step exactly `totalFrames + 1` times, once per `i ∈ [0, totalFrames]` with
timestamp `i / r`, and the timestamps are strictly increasing. -/
theorem render_loop_sampling_schedule (d r : ℚ) (hr : 0 < r) :
    (sampleTimestamps d r).length = totalFrames d r + 1 ∧
    (∀ i, i ≤ totalFrames d r → (sampleTimestamps d r).getD i 0 = (i : ℚ) / r) ∧
    (sampleTimestamps d r).Pairwise (· < ·) := by
  refine ⟨by simp only [sampleTimestamps, List.length_map, List.length_range], ?_, ?_⟩
  · intro i hi
    have hi' : i < totalFrames d r + 1 := Nat.lt_succ_of_le hi
    simp only [sampleTimestamps, List.getD_eq_getElem?_getD, List.getElem?_map,
      List.getElem?_range hi']
    rfl
  · refine (List.pairwise_lt_range _).map _ ?_
    intro a b hab
    have hab' : (a : ℚ) < b := by exact_mod_cast hab
    rw [div_lt_div_iff₀ hr hr]
    exact mul_lt_mul_of_pos_right hab' hr

/-- Witness for C1 at the spec's concrete instance: duration 2.0 s at 30 fps
gives 60 total frames, hence 61 sampler invocations at 0, 1/30, …, 2.0. -/
theorem render_loop_sampling_schedule_witness :
    (0 : ℚ) < 30 ∧ totalFrames 2 30 = 60 ∧
    ((sampleTimestamps 2 30).length = totalFrames 2 30 + 1 ∧
      (∀ i, i ≤ totalFrames 2 30 →
        (sampleTimestamps 2 30).getD i 0 = (i : ℚ) / 30) ∧
      (sampleTimestamps 2 30).Pairwise (· < ·)) :=
  ⟨by norm_num, by norm_num [totalFrames]; rfl,
    render_loop_sampling_schedule 2 30 (by norm_num)⟩

/-- **C2, counterexample to the claim as stated.**  A job of 60 total frames
whose cancel flag trips from the check at frame 11 onward: the pipeline never
finalizes the muxer and produces no container, but the caller receives the same
generic `setError` report as any true failure — `App` renders the non-`none`
error state in its error banner, so cancellation is *not* reported distinctly
from an error. -/
theorem cancellation_shown_as_error :
    (runRender 60 (fun j => decide (11 ≤ j))).errorMessage
        = some (renderFailureMessage "Render cancelled") ∧
    (runRender 60 (fun j => decide (11 ≤ j))).errorMessage ≠ none ∧
    (runRender 60 (fun j => decide (11 ≤ j))).framesEncoded = 11 ∧
    (runRender 60 (fun j => decide (11 ≤ j))).muxerFinalized = false := by
  refine ⟨by decide, by decide, by decide, by decide⟩

/-- **C2, amended.**  For every render job cancelled at a frame boundary, the
pipeline never finalizes the muxer and produces no container buffer; the
cancellation, however, is reported to the caller through the same `setError`
path and with the same generic message format as a true error, so the caller
renders it as an error. -/
theorem cancelled_render_never_finalizes (total : ℕ) (cancelled : ℕ → Bool)
    (h : ∃ i, i ≤ total ∧ cancelled i = true) :
    (runRender total cancelled).muxerFinalized = false ∧
    (runRender total cancelled).containerProduced = false ∧
    (runRender total cancelled).errorMessage
      = some (renderFailureMessage "Render cancelled") := by
  obtain ⟨i, hi, hc⟩ := h
  have hmem : i ∈ List.range (total + 1) := List.mem_range.mpr (Nat.lt_succ_of_le hi)
  cases hfind : (List.range (total + 1)).find? (fun j => cancelled j) with
  | none =>
      exfalso
      have hall := List.find?_eq_none.mp hfind
      exact absurd hc (by simpa using hall i hmem)
  | some j =>
      refine ⟨?_, ?_, ?_⟩ <;> simp [runRender, hfind]

/-- Witness for the amended C2: cancelling a 60-frame job from frame 11 onward
leaves the muxer unfinalized, yields no container, and sets the generic error
message. -/
theorem cancelled_render_never_finalizes_witness :
    (∃ i, i ≤ 60 ∧ (fun j => decide (11 ≤ j)) i = true) ∧
    ((runRender 60 (fun j => decide (11 ≤ j))).muxerFinalized = false ∧
      (runRender 60 (fun j => decide (11 ≤ j))).containerProduced = false ∧
      (runRender 60 (fun j => decide (11 ≤ j))).errorMessage
        = some (renderFailureMessage "Render cancelled")) :=
  ⟨⟨11, by norm_num, by decide⟩,
    cancelled_render_never_finalizes 60 _ ⟨11, by norm_num, by decide⟩⟩

/-- A JavaScript number as produced by the feature extractor: a finite rational,
`NaN`, or a signed infinity.  Only division can leave the finite range here;
sums of finite values are modelled directly in `ℚ`. -/
inductive JsNum where
  | num (q : ℚ)
  | nan
  | inf
  | ninf
deriving DecidableEq

/-- JavaScript division `a / b` for finite operands: `0 / 0` is `NaN`, a
nonzero numerator over `0` is a signed infinity. -/
def jsDiv (a b : ℚ) : JsNum :=
  if b = 0 then (if a = 0 then .nan else if 0 < a then .inf else .ninf)
  else .num (a / b)

/-- The `isNaN(x) ? 0 : x` guard applied to each band average before
`getAudioAverages` returns. -/
def nanGuard : JsNum → JsNum
  | .nan => .num 0
  | x => x

/-- `Math.floor(audioData.length * 0.1)` of `getAudioAverages`. -/
def bassEnd (N : ℕ) : ℕ := (⌊(N : ℚ) * (1 / 10)⌋).toNat

/-- `Math.floor(audioData.length * 0.4)` of `getAudioAverages`. -/
def midsEnd (N : ℕ) : ℕ := (⌊(N : ℚ) * (4 / 10)⌋).toNat

/-- The three band averages returned by `getAudioAverages`. -/
structure Averages where
  bass : JsNum
  mids : JsNum
  overall : JsNum
deriving DecidableEq

/-- From the `useCanvasRenderer` module, `getAudioAverages`: an empty (or
absent) spectrum short-circuits to zeros; otherwise `bass` sums the bins in
`[0, bassEnd)` and divides by `bassEnd`, `mids` sums `[bassEnd, midsEnd)` and
divides by `midsEnd - bassEnd`, `overall` averages the whole array, and each
result passes through the `isNaN` guard. -/
def getAudioAverages (S : List ℚ) : Averages :=
  if S.length = 0 then ⟨.num 0, .num 0, .num 0⟩
  else
    let bEnd := bassEnd S.length
    let mEnd := midsEnd S.length
    let bass := jsDiv (S.take bEnd).sum (bEnd : ℚ)
    let mids := jsDiv ((S.take mEnd).drop bEnd).sum ((mEnd - bEnd : ℕ) : ℚ)
    let overall := jsDiv S.sum (S.length : ℚ)
    ⟨nanGuard bass, nanGuard mids, nanGuard overall⟩

/-- The spec's band mean: the arithmetic mean of a list, `0` for an empty
range. -/
def specMean (l : List ℚ) : ℚ :=
  if l.length = 0 then 0 else l.sum / (l.length : ℚ)

theorem bassEnd_le (N : ℕ) : bassEnd N ≤ N := by
  rw [bassEnd, Int.toNat_le]
  calc ⌊(N : ℚ) * (1 / 10)⌋ ≤ ⌊(N : ℚ)⌋ := by
        apply Int.floor_le_floor
        nlinarith [Nat.cast_nonneg (α := ℚ) N]
    _ = (N : ℤ) := Int.floor_natCast N

theorem bassEnd_le_midsEnd (N : ℕ) : bassEnd N ≤ midsEnd N := by
  rw [bassEnd, midsEnd]
  apply Int.toNat_le_toNat
  apply Int.floor_le_floor
  nlinarith [Nat.cast_nonneg (α := ℚ) N]

theorem midsEnd_le (N : ℕ) : midsEnd N ≤ N := by
  rw [midsEnd, Int.toNat_le]
  calc ⌊(N : ℚ) * (4 / 10)⌋ ≤ ⌊(N : ℚ)⌋ := by
        apply Int.floor_le_floor
        nlinarith [Nat.cast_nonneg (α := ℚ) N]
    _ = (N : ℤ) := Int.floor_natCast N

theorem nanGuard_jsDiv_mean (l : List ℚ) (d : ℕ) (hd : l.length = d) :
    nanGuard (jsDiv l.sum (d : ℚ)) = JsNum.num (specMean l) := by
  by_cases h0 : d = 0
  · subst h0
    have hl : l = [] := List.length_eq_zero.mp hd
    subst hl
    simp [jsDiv, nanGuard, specMean]
  · have hd' : ((d : ℚ)) ≠ 0 := by exact_mod_cast h0
    rw [jsDiv, if_neg hd']
    rw [specMean, hd, if_neg h0]
    rfl

/-- The three band averages, expressed as spec-side means over the claimed
index ranges.  Shared by the C7 and C8 theorems. -/
theorem getAudioAverages_spec (S : List ℚ) :
    getAudioAverages S =
      ⟨JsNum.num (specMean (S.take (bassEnd S.length))),
       JsNum.num (specMean ((S.take (midsEnd S.length)).drop (bassEnd S.length))),
       JsNum.num (specMean S)⟩ := by
  by_cases hN : S.length = 0
  · have hS : S = [] := List.length_eq_zero.mp hN
    subst hS
    simp [getAudioAverages, specMean]
  · have hb : (S.take (bassEnd S.length)).length = bassEnd S.length := by
      rw [List.length_take]
      exact Nat.min_eq_left (bassEnd_le S.length)
    have hm : ((S.take (midsEnd S.length)).drop (bassEnd S.length)).length
        = midsEnd S.length - bassEnd S.length := by
      rw [List.length_drop, List.length_take]
      rw [Nat.min_eq_left (midsEnd_le S.length)]
    simp only [getAudioAverages, if_neg hN]
    congr 1
    · exact nanGuard_jsDiv_mean _ _ hb
    · exact nanGuard_jsDiv_mean _ _ hm
    · exact nanGuard_jsDiv_mean _ _ rfl

/-- **C7.** For every spectrum `S` of length `N`, the feature extractor returns
`bass` = mean of `S` over `[0, ⌊0.1N⌋)`, `mids` = mean over `[⌊0.1N⌋, ⌊0.4N⌋)`,
and `overall` = mean over `[0, N)`; an empty range (or `N = 0`) yields the
finite value `0`, never `NaN` — every field is a finite `JsNum.num`. -/
theorem feature_extractor_band_means (S : List ℚ) :
    getAudioAverages S =
      ⟨JsNum.num (specMean (S.take (bassEnd S.length))),
       JsNum.num (specMean ((S.take (midsEnd S.length)).drop (bassEnd S.length))),
       JsNum.num (specMean S)⟩ :=
  getAudioAverages_spec S

theorem specMean_nonneg (l : List ℚ) (h : ∀ x ∈ l, 0 ≤ x) : 0 ≤ specMean l := by
  rw [specMean]
  split
  · exact le_refl 0
  · exact div_nonneg (List.sum_nonneg h) (Nat.cast_nonneg _)

theorem specMean_le (l : List ℚ) (c : ℚ) (hc : 0 ≤ c) (h : ∀ x ∈ l, x ≤ c) :
    specMean l ≤ c := by
  rw [specMean]
  by_cases hlen : l.length = 0
  · rw [if_pos hlen]
    exact hc
  · rw [if_neg hlen]
    have hpos : (0 : ℚ) < l.length := by
      exact_mod_cast Nat.pos_of_ne_zero hlen
    rw [div_le_iff₀ hpos]
    have hb := List.sum_le_card_nsmul l c h
    simpa [nsmul_eq_mul, mul_comm] using hb

theorem specMean_zero (l : List ℚ) (h : ∀ x ∈ l, x = 0) : specMean l = 0 := by
  rw [specMean]
  split
  · rfl
  · rw [List.sum_eq_zero h, zero_div]

/-- **C8.** For every spectrum whose magnitudes lie in `[0, 255]`, each of
`bass`, `mids`, `overall` is a finite value in `[0, 255]`; for an all-zero
spectrum all three are `0`. -/
theorem feature_extractor_outputs_in_range (S : List ℚ)
    (hS : ∀ v ∈ S, 0 ≤ v ∧ v ≤ 255) :
    ∃ b m o, getAudioAverages S = ⟨JsNum.num b, JsNum.num m, JsNum.num o⟩ ∧
      0 ≤ b ∧ b ≤ 255 ∧ 0 ≤ m ∧ m ≤ 255 ∧ 0 ≤ o ∧ o ≤ 255 ∧
      ((∀ v ∈ S, v = 0) → b = 0 ∧ m = 0 ∧ o = 0) := by
  have hsub1 : ∀ x ∈ S.take (bassEnd S.length), x ∈ S :=
    fun x hx => List.take_subset _ _ hx
  have hsub2 : ∀ x ∈ (S.take (midsEnd S.length)).drop (bassEnd S.length), x ∈ S :=
    fun x hx => List.take_subset _ _ (List.drop_subset _ _ hx)
  refine ⟨_, _, _, getAudioAverages_spec S, ?_, ?_, ?_, ?_, ?_, ?_, ?_⟩
  · exact specMean_nonneg _ (fun x hx => (hS x (hsub1 x hx)).1)
  · exact specMean_le _ _ (by norm_num) (fun x hx => (hS x (hsub1 x hx)).2)
  · exact specMean_nonneg _ (fun x hx => (hS x (hsub2 x hx)).1)
  · exact specMean_le _ _ (by norm_num) (fun x hx => (hS x (hsub2 x hx)).2)
  · exact specMean_nonneg _ (fun x hx => (hS x hx).1)
  · exact specMean_le _ _ (by norm_num) (fun x hx => (hS x hx).2)
  · intro hz
    exact ⟨specMean_zero _ (fun x hx => hz x (hsub1 x hx)),
      specMean_zero _ (fun x hx => hz x (hsub2 x hx)),
      specMean_zero _ hz⟩

/-- Witness for C8 on a concrete ten-bin spectrum in range. -/
theorem feature_extractor_outputs_in_range_witness :
    (∀ v ∈ ([0, 255, 128, 64, 17, 200, 33, 90, 120, 5] : List ℚ), 0 ≤ v ∧ v ≤ 255) ∧
    (∃ b m o,
      getAudioAverages [0, 255, 128, 64, 17, 200, 33, 90, 120, 5]
        = ⟨JsNum.num b, JsNum.num m, JsNum.num o⟩ ∧
      0 ≤ b ∧ b ≤ 255 ∧ 0 ≤ m ∧ m ≤ 255 ∧ 0 ≤ o ∧ o ≤ 255 ∧
      ((∀ v ∈ ([0, 255, 128, 64, 17, 200, 33, 90, 120, 5] : List ℚ), v = 0) →
        b = 0 ∧ m = 0 ∧ o = 0)) :=
  ⟨by norm_num,
    feature_extractor_outputs_in_range [0, 255, 128, 64, 17, 200, 33, 90, 120, 5]
      (by norm_num)⟩

/-- JavaScript's `ToUint8` integer step: truncation toward zero (as in the
assignment `smoothedDataArray[j] = …` of `handleRenderVideo`). -/
def jsTrunc (q : ℚ) : ℤ := if 0 ≤ q then ⌊q⌋ else -⌊-q⌋

/-- Storing a JavaScript number into a `Uint8Array` slot: truncate toward
zero, then reduce modulo 256. -/
def toUint8 (q : ℚ) : ℕ := ((jsTrunc q) % 256).toNat

/-- One elementwise smoothing update of `handleRenderVideo`:
`smoothedDataArray[j] = smoothingFactor * smoothedDataArray[j]
   + (1 - smoothingFactor) * rawDataArray[j]`, where the assignment target is a
`Uint8Array` slot. -/
def smoothStep (alpha : ℚ) (s raw : ℕ) : ℕ :=
  toUint8 (alpha * s + (1 - alpha) * raw)

/-- The smoothed value of one bin across ticks of the render loop, for a
constant raw input `raw`: the state starts from the zero fill
(`new Uint8Array(frequencyBinCount).fill(0)`) and applies `smoothStep` once per
tick. -/
def smoothedSeq (alpha : ℚ) (raw : ℕ) : ℕ → ℕ
  | 0 => 0
  | n + 1 => smoothStep alpha (smoothedSeq alpha raw n) raw

theorem toUint8_eq_floor (q : ℚ) (h0 : 0 ≤ q) (h255 : q ≤ 255) :
    ((toUint8 q : ℕ) : ℤ) = ⌊q⌋ := by
  have hf0 : (0 : ℤ) ≤ ⌊q⌋ := Int.floor_nonneg.mpr h0
  have hf255 : ⌊q⌋ < 256 := by
    have h : ⌊q⌋ ≤ ⌊(255 : ℚ)⌋ := Int.floor_le_floor h255
    have h255f : ⌊(255 : ℚ)⌋ = 255 := by norm_num
    omega
  rw [toUint8, jsTrunc, if_pos h0, Int.emod_eq_of_lt hf0 (by omega)]
  exact Int.toNat_of_nonneg hf0

theorem smoothStep_bounds (alpha : ℚ) (R s : ℕ) (h0 : 0 ≤ alpha) (h1 : alpha < 1)
    (hsR : s ≤ R) (hR : R ≤ 255) :
    s ≤ smoothStep alpha s R ∧ smoothStep alpha s R ≤ R := by
  have hsR' : (s : ℚ) ≤ (R : ℚ) := by exact_mod_cast hsR
  have hR' : (R : ℚ) ≤ 255 := by exact_mod_cast hR
  have hs0 : (0 : ℚ) ≤ (s : ℚ) := Nat.cast_nonneg s
  have hqs : (s : ℚ) ≤ alpha * s + (1 - alpha) * R := by nlinarith
  have hqR : alpha * (s : ℚ) + (1 - alpha) * R ≤ (R : ℚ) := by nlinarith
  have hq0 : (0 : ℚ) ≤ alpha * s + (1 - alpha) * R := le_trans hs0 hqs
  have hq255 : alpha * (s : ℚ) + (1 - alpha) * R ≤ 255 := le_trans hqR hR'
  have hz : ((toUint8 (alpha * s + (1 - alpha) * R) : ℕ) : ℤ)
      = ⌊alpha * (s : ℚ) + (1 - alpha) * R⌋ := toUint8_eq_floor _ hq0 hq255
  have hstep : smoothStep alpha s R = toUint8 (alpha * s + (1 - alpha) * R) := rfl
  constructor
  · have hlow : (s : ℤ) ≤ ⌊alpha * (s : ℚ) + (1 - alpha) * R⌋ := by
      rw [Int.le_floor]
      push_cast
      exact hqs
    have : (s : ℤ) ≤ ((smoothStep alpha s R : ℕ) : ℤ) := by
      rw [hstep, hz]
      exact hlow
    exact_mod_cast this
  · have hhigh : ⌊alpha * (s : ℚ) + (1 - alpha) * R⌋ ≤ (R : ℤ) := by
      have h := Int.floor_le_floor hqR
      rwa [Int.floor_natCast] at h
    have : ((smoothStep alpha s R : ℕ) : ℤ) ≤ (R : ℤ) := by
      rw [hstep, hz]
      exact hhigh
    exact_mod_cast this

theorem smoothStep_self (alpha : ℚ) (R : ℕ) (hR : R ≤ 255) :
    smoothStep alpha R R = R := by
  have h : alpha * (R : ℚ) + (1 - alpha) * R = (R : ℚ) := by ring
  have hz : ((toUint8 (alpha * R + (1 - alpha) * R) : ℕ) : ℤ)
      = ⌊alpha * (R : ℚ) + (1 - alpha) * R⌋ :=
    toUint8_eq_floor _ (by rw [h]; exact Nat.cast_nonneg R)
      (by rw [h]; exact_mod_cast hR)
  have hfin : ((smoothStep alpha R R : ℕ) : ℤ) = (R : ℤ) := by
    rw [show smoothStep alpha R R = toUint8 (alpha * R + (1 - alpha) * R) from rfl,
      hz, h, Int.floor_natCast]
  exact_mod_cast hfin

theorem smoothStep_zero_alpha (s R : ℕ) (hR : R ≤ 255) : smoothStep 0 s R = R := by
  have h : (0 : ℚ) * s + (1 - 0) * R = (R : ℚ) := by ring
  have hz : ((toUint8 ((0 : ℚ) * s + (1 - 0) * R) : ℕ) : ℤ)
      = ⌊(0 : ℚ) * s + (1 - 0) * R⌋ :=
    toUint8_eq_floor _ (by rw [h]; exact Nat.cast_nonneg R)
      (by rw [h]; exact_mod_cast hR)
  have hfin : ((smoothStep 0 s R : ℕ) : ℤ) = (R : ℤ) := by
    rw [show smoothStep 0 s R = toUint8 ((0 : ℚ) * s + (1 - 0) * R) from rfl,
      hz, h, Int.floor_natCast]
  exact_mod_cast hfin

theorem smoothedSeq_le (alpha : ℚ) (R : ℕ) (h0 : 0 ≤ alpha) (h1 : alpha < 1)
    (hR : R ≤ 255) : ∀ n, smoothedSeq alpha R n ≤ R := by
  intro n
  induction n with
  | zero => exact Nat.zero_le R
  | succ m ih => exact (smoothStep_bounds alpha R _ h0 h1 ih hR).2

theorem smoothedSeq_mono (alpha : ℚ) (R : ℕ) (h0 : 0 ≤ alpha) (h1 : alpha < 1)
    (hR : R ≤ 255) : ∀ n, smoothedSeq alpha R n ≤ smoothedSeq alpha R (n + 1) :=
  fun n =>
    (smoothStep_bounds alpha R _ h0 h1 (smoothedSeq_le alpha R h0 h1 hR n) hR).1

theorem smoothedSeq_progress (alpha : ℚ) (R : ℕ) (h0 : 0 ≤ alpha) (h1 : alpha < 1)
    (hR : R ≤ 255) :
    ∀ n, n ≤ smoothedSeq alpha R n ∨ smoothedSeq alpha R (n + 1) = smoothedSeq alpha R n := by
  intro n
  induction n with
  | zero => exact Or.inl (Nat.le_refl 0)
  | succ m ih =>
      by_cases heq : smoothedSeq alpha R (m + 1) = smoothedSeq alpha R m
      · right
        rw [show smoothedSeq alpha R (m + 2)
            = smoothStep alpha (smoothedSeq alpha R (m + 1)) R from rfl, heq]
        exact heq
      · left
        cases ih with
        | inl hm =>
            have hmono := smoothedSeq_mono alpha R h0 h1 hR m
            have hlt : smoothedSeq alpha R m < smoothedSeq alpha R (m + 1) :=
              lt_of_le_of_ne hmono (fun h => heq h.symm)
            omega
        | inr hm => exact absurd hm heq

theorem smoothedSeq_stable (alpha : ℚ) (R : ℕ) (h0 : 0 ≤ alpha) (h1 : alpha < 1)
    (hR : R ≤ 255) :
    ∀ n, R ≤ n → smoothedSeq alpha R n = smoothedSeq alpha R R := by
  have hfix : smoothedSeq alpha R (R + 1) = smoothedSeq alpha R R := by
    cases smoothedSeq_progress alpha R h0 h1 hR R with
    | inl h =>
        have hle := smoothedSeq_le alpha R h0 h1 hR R
        have hRR : smoothedSeq alpha R R = R := Nat.le_antisymm hle h
        rw [show smoothedSeq alpha R (R + 1)
            = smoothStep alpha (smoothedSeq alpha R R) R from rfl, hRR]
        exact smoothStep_self alpha R hR
    | inr h => exact h
  intro n
  induction n with
  | zero =>
      intro hn
      rw [Nat.le_zero.mp hn]
  | succ m ih =>
      intro hn
      by_cases hm : R ≤ m
      · have hmr := ih hm
        calc smoothedSeq alpha R (m + 1)
            = smoothStep alpha (smoothedSeq alpha R m) R := rfl
          _ = smoothStep alpha (smoothedSeq alpha R R) R := by rw [hmr]
          _ = smoothedSeq alpha R (R + 1) := rfl
          _ = smoothedSeq alpha R R := hfix
      · have hRm : R = m + 1 := by omega
        rw [hRm]

theorem smoothedSeq_gap (alpha : ℚ) (R : ℕ) (h0 : 0 ≤ alpha) (h1 : alpha < 1)
    (hR : R ≤ 255) :
    (1 - alpha) * ((R : ℚ) - (smoothedSeq alpha R R : ℚ)) < 1 := by
  have hfix : smoothStep alpha (smoothedSeq alpha R R) R = smoothedSeq alpha R R :=
    smoothedSeq_stable alpha R h0 h1 hR (R + 1) (Nat.le_succ R)
  have hsle : smoothedSeq alpha R R ≤ R := smoothedSeq_le alpha R h0 h1 hR R
  have hsR' : ((smoothedSeq alpha R R : ℕ) : ℚ) ≤ (R : ℚ) := by exact_mod_cast hsle
  have hR' : (R : ℚ) ≤ 255 := by exact_mod_cast hR
  have hs0 : (0 : ℚ) ≤ ((smoothedSeq alpha R R : ℕ) : ℚ) := Nat.cast_nonneg _
  have h0q : (0 : ℚ) ≤ alpha * (smoothedSeq alpha R R : ℚ) + (1 - alpha) * R := by
    nlinarith [Nat.cast_nonneg (α := ℚ) R]
  have h255q : alpha * ((smoothedSeq alpha R R : ℕ) : ℚ) + (1 - alpha) * R ≤ 255 := by
    nlinarith
  have hz := toUint8_eq_floor
    (alpha * (smoothedSeq alpha R R : ℚ) + (1 - alpha) * R) h0q h255q
  have hfloor : ⌊alpha * ((smoothedSeq alpha R R : ℕ) : ℚ) + (1 - alpha) * R⌋
      = ((smoothedSeq alpha R R : ℕ) : ℤ) := by
    rw [← hz]
    exact_mod_cast congrArg (fun (k : ℕ) => (k : ℤ)) hfix
  have hlt : alpha * ((smoothedSeq alpha R R : ℕ) : ℚ) + (1 - alpha) * R
      < (smoothedSeq alpha R R : ℚ) + 1 := by
    have h := Int.lt_floor_add_one
      (alpha * ((smoothedSeq alpha R R : ℕ) : ℚ) + (1 - alpha) * R)
    rw [hfloor] at h
    push_cast at h
    exact h
  have hexp : (1 - alpha) * ((R : ℚ) - (smoothedSeq alpha R R : ℚ))
      = alpha * (smoothedSeq alpha R R : ℚ) + (1 - alpha) * R
        - (smoothedSeq alpha R R : ℚ) := by ring
  rw [hexp]
  linarith

/-- **C4, counterexample to the claim as stated.**  With `α = 1/2` and the
constant raw spectrum value `1`, the `Uint8Array` assignment truncates
`0.5` back to `0` on every tick, so the smoothed state stays `0` forever and
never converges to the raw value `1`. -/
theorem smoothing_never_reaches_raw :
    ¬ ∃ N : ℕ, ∀ n, N ≤ n → smoothedSeq (1 / 2) 1 n = 1 := by
  have hz : ∀ n, smoothedSeq (1 / 2) 1 n = 0 := by
    intro n
    induction n with
    | zero => rfl
    | succ m ih =>
        rw [show smoothedSeq (1 / 2) 1 (m + 1)
            = smoothStep (1 / 2) (smoothedSeq (1 / 2) 1 m) 1 from rfl, ih]
        norm_num [smoothStep, toUint8, jsTrunc]
  rintro ⟨N, hN⟩
  have h1 := hN N (Nat.le_refl N)
  rw [hz N] at h1
  exact absurd h1 (by norm_num)

/-- **C4, amended.**  For every smoothing factor `α ∈ [0, 1)` and constant raw
value `R ≤ 255`, iterating the update from the zero-initialized state: with
`α = 0` the output equals the raw input after every tick; in general the
smoothed state is nondecreasing, bounded by `R`, and becomes constant from tick
`R` onward at a limit `s*` with `(1 - α)·(R - s*) < 1` — because each tick
truncates into a `Uint8Array`, the limit can fall short of `R` (quantized
convergence, not exact convergence to `R`). -/
theorem smoothing_quantized_convergence (alpha : ℚ) (R : ℕ)
    (h0 : 0 ≤ alpha) (h1 : alpha < 1) (hR : R ≤ 255) :
    (alpha = 0 → ∀ n, 1 ≤ n → smoothedSeq alpha R n = R) ∧
    (∀ n, smoothedSeq alpha R n ≤ smoothedSeq alpha R (n + 1)) ∧
    (∀ n, smoothedSeq alpha R n ≤ R) ∧
    (∀ n, R ≤ n → smoothedSeq alpha R n = smoothedSeq alpha R R) ∧
    (1 - alpha) * ((R : ℚ) - (smoothedSeq alpha R R : ℚ)) < 1 := by
  refine ⟨?_, smoothedSeq_mono alpha R h0 h1 hR, smoothedSeq_le alpha R h0 h1 hR,
    smoothedSeq_stable alpha R h0 h1 hR, smoothedSeq_gap alpha R h0 h1 hR⟩
  intro ha n hn
  subst ha
  cases n with
  | zero => exact absurd hn (by omega)
  | succ m =>
      rw [show smoothedSeq 0 R (m + 1)
          = smoothStep 0 (smoothedSeq 0 R m) R from rfl]
      exact smoothStep_zero_alpha _ R hR

/-- Witness for the amended C4 at `α = 71/100` (the app's default smoothing)
and `R = 200`. -/
theorem smoothing_quantized_convergence_witness :
    (0 : ℚ) ≤ 71 / 100 ∧ (71 / 100 : ℚ) < 1 ∧ (200 : ℕ) ≤ 255 ∧
    (((71 / 100 : ℚ) = 0 → ∀ n, 1 ≤ n → smoothedSeq (71 / 100) 200 n = 200) ∧
      (∀ n, smoothedSeq (71 / 100) 200 n ≤ smoothedSeq (71 / 100) 200 (n + 1)) ∧
      (∀ n, smoothedSeq (71 / 100) 200 n ≤ 200) ∧
      (∀ n, 200 ≤ n → smoothedSeq (71 / 100) 200 n = smoothedSeq (71 / 100) 200 200) ∧
      (1 - 71 / 100) * ((200 : ℚ) - (smoothedSeq (71 / 100) 200 200 : ℚ)) < 1) :=
  ⟨by norm_num, by norm_num, by norm_num,
    smoothing_quantized_convergence (71 / 100) 200 (by norm_num) (by norm_num)
      (by norm_num)⟩

/-- The `reflection` field of `VisualizerConfig`. -/
inductive ReflectionType where
  | none
  | two
  | four
  | eight
deriving DecidableEq

/-- Fold factor of a reflection mode. -/
def foldFactor : ReflectionType → ℕ
  | .none => 1
  | .two => 2
  | .four => 4
  | .eight => 8

/-- From the `useCanvasRenderer` module, `drawCircularVisualizer`: the sequence
of `drawBar` invocations, in draw order, as pairs of the spectrum bin index
feeding the bar and the rotation at which the bar is drawn.  Rotations are
recorded as rational coefficients of π (the code rotates by e.g.
`Math.PI / 2 - angle`, recorded here as `1/2 - a`).  `barCount` is first
clamped by `Math.max(8, Math.min(128, config.barCount))`; each branch slices
the spectrum to its first `count` bins and draws each bin at its branch's
offsets.  (`drawBar` itself no-ops when the computed height is below 1 unit;
the pairs below record the angular placements attempted.) -/
def drawCircularVisualizer (barCount : ℕ) (reflection : ReflectionType) :
    List (ℕ × ℚ) :=
  let bc := max 8 (min 128 barCount)
  match reflection with
  | .eight =>
      let count := bc / 8
      (List.range count).flatMap (fun (i : ℕ) =>
        let a : ℚ := (i : ℚ) / (count : ℚ) * (1 / 4)
        [(i, a), (i, -a), (i, 1 / 2 - a), (i, 1 / 2 + a), (i, 1 - a), (i, 1 + a),
         (i, 3 / 2 - a), (i, 3 / 2 + a)])
  | .four =>
      let count := bc / 4
      (List.range count).flatMap (fun (i : ℕ) =>
        let a : ℚ := (i : ℚ) / (count : ℚ) * (1 / 2)
        [(i, a), (i, -a), (i, 1 - a), (i, 1 + a)])
  | .two =>
      let count := bc / 2
      (List.range count).flatMap (fun (i : ℕ) =>
        let a : ℚ := (i : ℚ) / (count : ℚ) * 1
        [(i, a), (i, -a)])
  | .none =>
      (List.range bc).flatMap (fun (i : ℕ) =>
        let a : ℚ := (i : ℚ) / (bc : ℚ) * 2
        [(i, a)])

/-- The claim's angular-offset table for fold factor `F` and base angle `a`
(angles as coefficients of π). -/
def specOffsets (F : ℕ) (a : ℚ) : List ℚ :=
  if F = 8 then [a, -a, 1 / 2 - a, 1 / 2 + a, 1 - a, 1 + a, 3 / 2 - a, 3 / 2 + a]
  else if F = 4 then [a, -a, 1 - a, 1 + a]
  else if F = 2 then [a, -a]
  else [a]

/-- The claim's description of the geometry engine: `distinctCount = ⌊barCount/F⌋`
base indices, base angle `aᵢ = (i/distinctCount)·(2π/F)`, each replicated at the
offset table of `F`. -/
def specDrawCalls (barCount : ℕ) (reflection : ReflectionType) : List (ℕ × ℚ) :=
  let F := foldFactor reflection
  let distinctCount := barCount / F
  (List.range distinctCount).flatMap (fun (i : ℕ) =>
    (specOffsets F ((i : ℚ) / (distinctCount : ℚ) * (2 / (F : ℚ)))).map
      (fun ang => (i, ang)))

theorem length_flatMap_const {f : ℕ → List (ℕ × ℚ)} (c k : ℕ)
    (h : ∀ i, (f i).length = k) : ((List.range c).flatMap f).length = c * k := by
  induction c with
  | zero => simp
  | succ n ih =>
      rw [List.range_succ, List.flatMap_append, List.length_append, ih]
      simp only [List.flatMap_cons, List.flatMap_nil, List.append_nil, h n]
      ring

/-- **C3.** For every in-range bar count and reflection mode with fold factor
`F`, the geometry engine draws bars for exactly `⌊barCount/F⌋` distinct base
indices (bins beyond that are dropped), with base angle
`aᵢ = (i/distinctCount)·(2π/F)` replicated at exactly the `F` offsets of the
claim's table — the draw calls coincide with the table-generated calls, and the
total number of angular placements is `⌊barCount/F⌋ · F`. -/
theorem geometry_engine_fold_table (barCount : ℕ) (reflection : ReflectionType)
    (h8 : 8 ≤ barCount) (h128 : barCount ≤ 128) :
    drawCircularVisualizer barCount reflection = specDrawCalls barCount reflection ∧
    (drawCircularVisualizer barCount reflection).length
      = (barCount / foldFactor reflection) * foldFactor reflection := by
  have hclamp : max 8 (min 128 barCount) = barCount := by
    rw [Nat.min_eq_right h128, Nat.max_eq_right h8]
  cases reflection with
  | none =>
      constructor
      · simp only [drawCircularVisualizer, specDrawCalls, foldFactor, hclamp,
          Nat.div_one]
        congr 1
        funext i
        simp only [specOffsets, List.map]
        norm_num
      · simp only [drawCircularVisualizer, foldFactor, hclamp, Nat.div_one]
        exact length_flatMap_const barCount 1 (fun i => rfl)
  | two =>
      constructor
      · simp only [drawCircularVisualizer, specDrawCalls, foldFactor, hclamp]
        congr 1
        funext i
        simp only [specOffsets, List.map]
        norm_num
      · simp only [drawCircularVisualizer, foldFactor, hclamp]
        exact length_flatMap_const (barCount / 2) 2 (fun i => rfl)
  | four =>
      constructor
      · simp only [drawCircularVisualizer, specDrawCalls, foldFactor, hclamp]
        congr 1
        funext i
        simp only [specOffsets, List.map]
        norm_num
      · simp only [drawCircularVisualizer, foldFactor, hclamp]
        exact length_flatMap_const (barCount / 4) 4 (fun i => rfl)
  | eight =>
      constructor
      · simp only [drawCircularVisualizer, specDrawCalls, foldFactor, hclamp]
        congr 1
        funext i
        simp only [specOffsets, List.map]
        norm_num
      · simp only [drawCircularVisualizer, foldFactor, hclamp]
        exact length_flatMap_const (barCount / 8) 8 (fun i => rfl)

/-- Witness for C3 at the claim's concrete instance: `reflection = four`,
`barCount = 100` gives 25 distinct bars and 100 total angular placements. -/
theorem geometry_engine_fold_table_witness :
    (8 : ℕ) ≤ 100 ∧ (100 : ℕ) ≤ 128 ∧
    (100 / foldFactor ReflectionType.four = 25) ∧
    ((drawCircularVisualizer 100 ReflectionType.four
        = specDrawCalls 100 ReflectionType.four) ∧
      (drawCircularVisualizer 100 ReflectionType.four).length
        = (100 / foldFactor ReflectionType.four) * foldFactor ReflectionType.four) :=
  ⟨by norm_num, by norm_num, rfl,
    geometry_engine_fold_table 100 ReflectionType.four (by norm_num) (by norm_num)⟩

/-- The `direction` field of `ParticleConfig`. -/
inductive Direction where
  | top
  | bottom
  | left
  | right
deriving DecidableEq

/-- A particle of the `useCanvasRenderer` module. -/
structure Particle where
  x : ℚ
  y : ℚ
  vx : ℚ
  vy : ℚ
deriving DecidableEq

/-- One particle of `initParticles`: uniform-random position in the frame and a
velocity of magnitude `1 + Math.random()` pointing along the travel axis
(`r1`, `r2`, `r3` are the three `Math.random()` draws). -/
def initParticle (dir : Direction) (w h r1 r2 r3 : ℚ) : Particle :=
  match dir with
  | .top => ⟨r1 * w, r2 * h, 0, 1 + r3⟩
  | .bottom => ⟨r1 * w, r2 * h, 0, -1 - r3⟩
  | .left => ⟨r1 * w, r2 * h, 1 + r3, 0⟩
  | .right => ⟨r1 * w, r2 * h, -1 - r3, 0⟩

/-- From the `useCanvasRenderer` module, `initParticles`: clear the array and
push `count` fresh particles; `rnd i` supplies the three `Math.random()` draws
of particle `i`. -/
def initParticles (count : ℕ) (dir : Direction) (w h : ℚ)
    (rnd : ℕ → ℚ × ℚ × ℚ) : List Particle :=
  (List.range count).map
    (fun (i : ℕ) => initParticle dir w h (rnd i).1 (rnd i).2.1 (rnd i).2.2)

/-- From the `useCanvasRenderer` module, `updateParticles`, restricted to one
particle: advance by `velocity * config.speed * (1 + bassIntensity * 0.3)`,
then apply the single wrap check of the travel direction — a particle past the
5-unit margin beyond its direction-of-travel edge is placed at the opposite
edge with a fresh `Math.random()` coordinate (`rand`) on the perpendicular
axis. -/
def updateParticle (dir : Direction) (speed bassIntensity w h rand : ℚ)
    (p : Particle) : Particle :=
  let speedMultiplier := 1 + bassIntensity * (3 / 10)
  let nx := p.x + p.vx * speed * speedMultiplier
  let ny := p.y + p.vy * speed * speedMultiplier
  match dir with
  | .top => if ny > h + 5 then ⟨rand * w, -5, p.vx, p.vy⟩ else ⟨nx, ny, p.vx, p.vy⟩
  | .bottom => if ny < -5 then ⟨rand * w, h + 5, p.vx, p.vy⟩ else ⟨nx, ny, p.vx, p.vy⟩
  | .left => if nx > w + 5 then ⟨-5, rand * h, p.vx, p.vy⟩ else ⟨nx, ny, p.vx, p.vy⟩
  | .right => if nx < -5 then ⟨w + 5, rand * h, p.vx, p.vy⟩ else ⟨nx, ny, p.vx, p.vy⟩

/-- The claim's pre-wrap motion step:
`position += velocity * speed * (1 + 0.3 * bassIntensity)`. -/
def movedParticle (speed bassIntensity : ℚ) (p : Particle) : Particle :=
  ⟨p.x + p.vx * speed * (1 + bassIntensity * (3 / 10)),
   p.y + p.vy * speed * (1 + bassIntensity * (3 / 10)), p.vx, p.vy⟩

/-- The claim's wrap condition: the particle has exited its direction-of-travel
edge past the 5-unit margin. -/
def exitsTravelEdge (dir : Direction) (w h : ℚ) (p : Particle) : Bool :=
  match dir with
  | .top => decide (p.y > h + 5)
  | .bottom => decide (p.y < -5)
  | .left => decide (p.x > w + 5)
  | .right => decide (p.x < -5)

/-- The claim's respawn: place the particle at the opposite edge with a fresh
random coordinate on the perpendicular axis, keeping its velocity. -/
def respawnParticle (dir : Direction) (w h rand : ℚ) (p : Particle) : Particle :=
  match dir with
  | .top => ⟨rand * w, -5, p.vx, p.vy⟩
  | .bottom => ⟨rand * w, h + 5, p.vx, p.vy⟩
  | .left => ⟨-5, rand * h, p.vx, p.vy⟩
  | .right => ⟨w + 5, rand * h, p.vx, p.vy⟩

/-- **C5.** At the render loop's call site the bass intensity is
`getAudioAverages(spectrum).bass / 255`, which lies in `[0, 1]` for a spectrum
with magnitudes in `[0, 255]`; and each particle tick equals the claim's
composition: move by `velocity * speed * (1 + 0.3 * bassIntensity)`, then — iff
the moved particle exited its direction-of-travel edge past the 5-unit
margin — exactly one respawn at the opposite edge with a fresh perpendicular
coordinate, and otherwise no respawn at all. -/
theorem particle_tick_update_and_wrap (S : List ℚ) (b : ℚ) (dir : Direction)
    (speed w h rand : ℚ) (p : Particle)
    (hS : ∀ v ∈ S, 0 ≤ v ∧ v ≤ 255)
    (hb : (getAudioAverages S).bass = JsNum.num b) :
    (0 ≤ b / 255 ∧ b / 255 ≤ 1) ∧
    updateParticle dir speed (b / 255) w h rand p =
      (if exitsTravelEdge dir w h (movedParticle speed (b / 255) p)
        then respawnParticle dir w h rand (movedParticle speed (b / 255) p)
        else movedParticle speed (b / 255) p) := by
  constructor
  · have hspec := getAudioAverages_spec S
    rw [hspec] at hb
    have hbval : b = specMean (S.take (bassEnd S.length)) := by
      have hx : specMean (S.take (bassEnd S.length)) = b := by
        simpa [JsNum.num.injEq] using hb
      exact hx.symm
    have hsub : ∀ x ∈ S.take (bassEnd S.length), x ∈ S :=
      fun x hx => List.take_subset _ _ hx
    have hb0 : 0 ≤ b := by
      rw [hbval]
      exact specMean_nonneg _ (fun x hx => (hS x (hsub x hx)).1)
    have hb255 : b ≤ 255 := by
      rw [hbval]
      exact specMean_le _ _ (by norm_num) (fun x hx => (hS x (hsub x hx)).2)
    constructor
    · positivity
    · rw [div_le_one (by norm_num : (0 : ℚ) < 255)]
      exact hb255
  · cases dir <;>
      simp only [updateParticle, movedParticle, exitsTravelEdge,
        respawnParticle, decide_eq_true_eq]

/-- Witness for C5: a ten-bin spectrum with full-scale bass (intensity 1) and a
downward particle that crosses the bottom margin and respawns at the top. -/
theorem particle_tick_update_and_wrap_witness :
    (∀ v ∈ ([255, 0, 0, 0, 0, 0, 0, 0, 0, 0] : List ℚ), 0 ≤ v ∧ v ≤ 255) ∧
    (getAudioAverages [255, 0, 0, 0, 0, 0, 0, 0, 0, 0]).bass = JsNum.num 255 ∧
    ((0 ≤ (255 : ℚ) / 255 ∧ (255 : ℚ) / 255 ≤ 1) ∧
      updateParticle Direction.top 2 ((255 : ℚ) / 255) 100 50 (1 / 2) ⟨0, 50, 0, 3⟩ =
        (if exitsTravelEdge Direction.top 100 50
            (movedParticle 2 ((255 : ℚ) / 255) ⟨0, 50, 0, 3⟩)
          then respawnParticle Direction.top 100 50 (1 / 2)
            (movedParticle 2 ((255 : ℚ) / 255) ⟨0, 50, 0, 3⟩)
          else movedParticle 2 ((255 : ℚ) / 255) ⟨0, 50, 0, 3⟩)) :=
  ⟨by norm_num, by norm_num [getAudioAverages, bassEnd, jsDiv, nanGuard],
    particle_tick_update_and_wrap [255, 0, 0, 0, 0, 0, 0, 0, 0, 0] 255
      Direction.top 2 100 50 (1 / 2) ⟨0, 50, 0, 3⟩ (by norm_num)
      (by norm_num [getAudioAverages, bassEnd, jsDiv, nanGuard])⟩

/-- A sequence of render-loop particle ticks applied to one particle; each tick
carries `(speed, bassIntensity, rand)` — the configuration speed, the bass
intensity of that frame, and the `Math.random()` draw used on a respawn. -/
def runTicks (dir : Direction) (w h : ℚ) (p : Particle)
    (ticks : List (ℚ × ℚ × ℚ)) : Particle :=
  ticks.foldl (fun q t => updateParticle dir t.1 t.2.1 w h t.2.2 q) p

/-- The coordinate of a particle on its axis of travel. -/
def axisCoord (dir : Direction) (p : Particle) : ℚ :=
  match dir with
  | .top => p.y
  | .bottom => p.y
  | .left => p.x
  | .right => p.x

/-- The frame dimension along the axis of travel. -/
def axisDim (dir : Direction) (w h : ℚ) : ℚ :=
  match dir with
  | .top => h
  | .bottom => h
  | .left => w
  | .right => w

/-- The velocity sign along the travel axis established by `initParticles`:
downward for `top`, upward for `bottom`, rightward for `left`, leftward for
`right`. -/
def travelVelOk (dir : Direction) (p : Particle) : Prop :=
  match dir with
  | .top => 0 ≤ p.vy
  | .bottom => p.vy ≤ 0
  | .left => 0 ≤ p.vx
  | .right => p.vx ≤ 0

theorem updateParticle_axis_bounds (dir : Direction) (w h speed bi rand : ℚ)
    (p : Particle) (hh : 0 ≤ h) (hw : 0 ≤ w) (hs : 0 ≤ speed) (hbi : 0 ≤ bi)
    (hvel : travelVelOk dir p)
    (hlow : -5 ≤ axisCoord dir p) (hhigh : axisCoord dir p ≤ axisDim dir w h + 5) :
    travelVelOk dir (updateParticle dir speed bi w h rand p) ∧
    -5 ≤ axisCoord dir (updateParticle dir speed bi w h rand p) ∧
    axisCoord dir (updateParticle dir speed bi w h rand p) ≤ axisDim dir w h + 5 := by
  have hmult : (0 : ℚ) ≤ 1 + bi * (3 / 10) := by linarith
  cases dir with
  | top =>
      simp only [travelVelOk, axisCoord, axisDim] at hvel hlow hhigh ⊢
      have hstep : 0 ≤ p.vy * speed * (1 + bi * (3 / 10)) :=
        mul_nonneg (mul_nonneg hvel hs) hmult
      by_cases hc : p.y + p.vy * speed * (1 + bi * (3 / 10)) > h + 5
      · simp only [updateParticle, if_pos hc]
        refine ⟨hvel, by norm_num, by linarith⟩
      · simp only [updateParticle, if_neg hc]
        push_neg at hc
        exact ⟨hvel, by linarith, hc⟩
  | bottom =>
      simp only [travelVelOk, axisCoord, axisDim] at hvel hlow hhigh ⊢
      have hstep : p.vy * speed * (1 + bi * (3 / 10)) ≤ 0 :=
        mul_nonpos_of_nonpos_of_nonneg (mul_nonpos_of_nonpos_of_nonneg hvel hs) hmult
      by_cases hc : p.y + p.vy * speed * (1 + bi * (3 / 10)) < -5
      · simp only [updateParticle, if_pos hc]
        refine ⟨hvel, by linarith, by norm_num⟩
      · simp only [updateParticle, if_neg hc]
        push_neg at hc
        exact ⟨hvel, hc, by linarith⟩
  | left =>
      simp only [travelVelOk, axisCoord, axisDim] at hvel hlow hhigh ⊢
      have hstep : 0 ≤ p.vx * speed * (1 + bi * (3 / 10)) :=
        mul_nonneg (mul_nonneg hvel hs) hmult
      by_cases hc : p.x + p.vx * speed * (1 + bi * (3 / 10)) > w + 5
      · simp only [updateParticle, if_pos hc]
        refine ⟨hvel, by norm_num, by linarith⟩
      · simp only [updateParticle, if_neg hc]
        push_neg at hc
        exact ⟨hvel, by linarith, hc⟩
  | right =>
      simp only [travelVelOk, axisCoord, axisDim] at hvel hlow hhigh ⊢
      have hstep : p.vx * speed * (1 + bi * (3 / 10)) ≤ 0 :=
        mul_nonpos_of_nonpos_of_nonneg (mul_nonpos_of_nonpos_of_nonneg hvel hs) hmult
      by_cases hc : p.x + p.vx * speed * (1 + bi * (3 / 10)) < -5
      · simp only [updateParticle, if_pos hc]
        refine ⟨hvel, by linarith, by norm_num⟩
      · simp only [updateParticle, if_neg hc]
        push_neg at hc
        exact ⟨hvel, hc, by linarith⟩

theorem initParticle_axis_bounds (dir : Direction) (w h r1 r2 r3 : ℚ)
    (hw : 0 ≤ w) (hh : 0 ≤ h) (h1a : 0 ≤ r1) (h1b : r1 ≤ 1)
    (h2a : 0 ≤ r2) (h2b : r2 ≤ 1) (h3 : 0 ≤ r3) :
    travelVelOk dir (initParticle dir w h r1 r2 r3) ∧
    -5 ≤ axisCoord dir (initParticle dir w h r1 r2 r3) ∧
    axisCoord dir (initParticle dir w h r1 r2 r3) ≤ axisDim dir w h + 5 := by
  have hxw : 0 ≤ r1 * w := mul_nonneg h1a hw
  have hxw' : r1 * w ≤ w := by nlinarith
  have hyh : 0 ≤ r2 * h := mul_nonneg h2a hh
  have hyh' : r2 * h ≤ h := by nlinarith
  cases dir with
  | top =>
      simp only [initParticle, travelVelOk, axisCoord, axisDim]
      exact ⟨by linarith, by linarith, by linarith⟩
  | bottom =>
      simp only [initParticle, travelVelOk, axisCoord, axisDim]
      exact ⟨by linarith, by linarith, by linarith⟩
  | left =>
      simp only [initParticle, travelVelOk, axisCoord, axisDim]
      exact ⟨by linarith, by linarith, by linarith⟩
  | right =>
      simp only [initParticle, travelVelOk, axisCoord, axisDim]
      exact ⟨by linarith, by linarith, by linarith⟩

/-- **C6.** Every particle produced by `initParticles` (random draws in
`[0, 1]`, magnitude draw nonnegative) keeps its axis-of-travel coordinate in
`[-5, dimension + 5]` after every sequence of update ticks with nonnegative
speed and bass intensity — stated per particle, which covers every particle of
the set since updates act on each particle independently, and quantifying over
all tick lists covers every intermediate state. -/
theorem particle_axis_always_in_margin (dir : Direction) (w h r1 r2 r3 : ℚ)
    (ticks : List (ℚ × ℚ × ℚ))
    (hw : 0 ≤ w) (hh : 0 ≤ h) (h1a : 0 ≤ r1) (h1b : r1 ≤ 1)
    (h2a : 0 ≤ r2) (h2b : r2 ≤ 1) (h3 : 0 ≤ r3)
    (hticks : ∀ t ∈ ticks, 0 ≤ t.1 ∧ 0 ≤ t.2.1) :
    -5 ≤ axisCoord dir (runTicks dir w h (initParticle dir w h r1 r2 r3) ticks) ∧
    axisCoord dir (runTicks dir w h (initParticle dir w h r1 r2 r3) ticks)
      ≤ axisDim dir w h + 5 := by
  have main : ∀ (ts : List (ℚ × ℚ × ℚ)) (p : Particle),
      (∀ t ∈ ts, 0 ≤ t.1 ∧ 0 ≤ t.2.1) →
      travelVelOk dir p → -5 ≤ axisCoord dir p →
      axisCoord dir p ≤ axisDim dir w h + 5 →
      travelVelOk dir (runTicks dir w h p ts) ∧
      -5 ≤ axisCoord dir (runTicks dir w h p ts) ∧
      axisCoord dir (runTicks dir w h p ts) ≤ axisDim dir w h + 5 := by
    intro ts
    induction ts with
    | nil => exact fun p _ hv hl hg => ⟨hv, hl, hg⟩
    | cons t ts ih =>
        intro p hts hv hl hg
        have ht := hts t (List.mem_cons_self t ts)
        have hstep := updateParticle_axis_bounds dir w h t.1 t.2.1 t.2.2 p
          hh hw ht.1 ht.2 hv hl hg
        exact ih (updateParticle dir t.1 t.2.1 w h t.2.2 p)
          (fun u hu => hts u (List.mem_cons_of_mem t hu))
          hstep.1 hstep.2.1 hstep.2.2
  have hinit := initParticle_axis_bounds dir w h r1 r2 r3 hw hh h1a h1b h2a h2b h3
  have hrun := main ticks (initParticle dir w h r1 r2 r3) hticks
    hinit.1 hinit.2.1 hinit.2.2
  exact ⟨hrun.2.1, hrun.2.2⟩

/-- Witness for C6: a downward particle on a 100×50 frame, run for two concrete
ticks. -/
theorem particle_axis_always_in_margin_witness :
    ((0 : ℚ) ≤ 100 ∧ (0 : ℚ) ≤ 50 ∧ (0 : ℚ) ≤ 1 / 3 ∧ (1 / 3 : ℚ) ≤ 1 ∧
      (0 : ℚ) ≤ 2 / 3 ∧ (2 / 3 : ℚ) ≤ 1 ∧ (0 : ℚ) ≤ 1 / 2 ∧
      (∀ t ∈ ([(1, 1 / 2, 1 / 4), (2, 0, 3 / 4)] : List (ℚ × ℚ × ℚ)),
        0 ≤ t.1 ∧ 0 ≤ t.2.1)) ∧
    (-5 ≤ axisCoord Direction.top
        (runTicks Direction.top 100 50
          (initParticle Direction.top 100 50 (1 / 3) (2 / 3) (1 / 2))
          [(1, 1 / 2, 1 / 4), (2, 0, 3 / 4)]) ∧
      axisCoord Direction.top
        (runTicks Direction.top 100 50
          (initParticle Direction.top 100 50 (1 / 3) (2 / 3) (1 / 2))
          [(1, 1 / 2, 1 / 4), (2, 0, 3 / 4)])
        ≤ axisDim Direction.top 100 50 + 5) :=
  ⟨⟨by norm_num, by norm_num, by norm_num, by norm_num, by norm_num, by norm_num,
      by norm_num, by norm_num⟩,
    particle_axis_always_in_margin Direction.top 100 50 (1 / 3) (2 / 3) (1 / 2)
      [(1, 1 / 2, 1 / 4), (2, 0, 3 / 4)] (by norm_num) (by norm_num) (by norm_num)
      (by norm_num) (by norm_num) (by norm_num) (by norm_num) (by norm_num)⟩

/-- The particle configuration of `useCanvasRenderer`. -/
structure ParticleConfig where
  enabled : Bool
  count : ℕ
  color : String
  blur : ℚ
  direction : Direction
  speed : ℚ
deriving DecidableEq

/-- The particle-reinitialization effect of the `useCanvasRenderer` hook: its
dependency array is `[particleConfig.count, particleConfig.direction,
canvasRef, particleConfig.enabled]` (the ref is stable), so `initParticles`
runs again exactly when `count`, `direction`, or `enabled` changed; otherwise
the existing particle array is kept as is. -/
def reconfigureParticles (old new : ParticleConfig) (ps : List Particle)
    (w h : ℚ) (rnd : ℕ → ℚ × ℚ × ℚ) : List Particle :=
  if old.count = new.count ∧ old.direction = new.direction ∧
      old.enabled = new.enabled
    then ps
    else initParticles new.count new.direction w h rnd

/-- **C9.** A configuration change touching only `speed`, `color`, or `blur`
(i.e. with `count`, `direction`, `enabled` unchanged) leaves the particle array
untouched — same list, same positions and velocities; a change to `count`,
`direction`, or `enabled` fully reinitializes the set from fresh random
draws. -/
theorem particle_reconfigure_policy (old new : ParticleConfig)
    (ps : List Particle) (w h : ℚ) (rnd : ℕ → ℚ × ℚ × ℚ) :
    ((old.count = new.count ∧ old.direction = new.direction ∧
        old.enabled = new.enabled) →
      reconfigureParticles old new ps w h rnd = ps) ∧
    ((old.count ≠ new.count ∨ old.direction ≠ new.direction ∨
        old.enabled ≠ new.enabled) →
      reconfigureParticles old new ps w h rnd
        = initParticles new.count new.direction w h rnd) := by
  constructor
  · intro hsame
    rw [reconfigureParticles, if_pos hsame]
  · intro hdiff
    have hne : ¬ (old.count = new.count ∧ old.direction = new.direction ∧
        old.enabled = new.enabled) := by tauto
    rw [reconfigureParticles, if_neg hne]

/-- Witness for C9: changing only speed, color, and blur keeps the array;
changing the count reinitializes. -/
theorem particle_reconfigure_policy_witness :
    reconfigureParticles ⟨true, 150, "#FFFFFF", 10, Direction.top, 1 / 2⟩
        ⟨true, 150, "#FF0000", 3, Direction.top, 5⟩ [⟨1, 2, 0, 1⟩] 100 50
        (fun _ => (0, 0, 0)) = [⟨1, 2, 0, 1⟩] ∧
    reconfigureParticles ⟨true, 150, "#FFFFFF", 10, Direction.top, 1 / 2⟩
        ⟨true, 100, "#FFFFFF", 10, Direction.top, 1 / 2⟩ [⟨1, 2, 0, 1⟩] 100 50
        (fun _ => (0, 0, 0))
      = initParticles 100 Direction.top 100 50 (fun _ => (0, 0, 0)) :=
  ⟨(particle_reconfigure_policy _ _ _ _ _ _).1 ⟨rfl, rfl, rfl⟩,
    (particle_reconfigure_policy _ _ _ _ _ _).2 (Or.inl (by decide))⟩

/-- The text configuration of `useCanvasRenderer`. -/
structure TextConfig where
  mainText : String
  mainColor : String
  mainSize : ℚ
  mainFont : String
  mainBold : Bool
  mainItalic : Bool
  mainLetterSpacing : ℚ
  mainYOffset : ℚ
  authorText : String
  authorColor : String
  authorSize : ℚ
  authorFont : String
  authorBold : Bool
  authorItalic : Bool
  authorLetterSpacing : ℚ
  authorYOffset : ℚ
deriving DecidableEq

/-- One `ctx.fillText` call of `drawText`: the string and its anchor point. -/
structure DrawnText where
  text : String
  x : ℚ
  y : ℚ
deriving DecidableEq

/-- From the `useCanvasRenderer` module, `drawText`: the list of `fillText`
calls, in draw order.  The whole body is guarded by `if (config.mainText)`
(JavaScript string truthiness: the empty string is falsy), and the author text
is drawn inside that guard under the further `if (config.authorText)`. -/
def drawText (w h : ℚ) (config : TextConfig) : List DrawnText :=
  let centerX := w / 2
  if config.mainText = "" then []
  else
    let mainFontSize := h * (config.mainSize / 100)
    let mainY := h / 2 + config.mainYOffset
    let mainItem : DrawnText := ⟨config.mainText, centerX, mainY⟩
    if config.authorText = "" then [mainItem]
    else
      let authorFontSize := h * (config.authorSize / 100)
      let authorY := mainY + mainFontSize / 2 + config.authorYOffset
        + authorFontSize / 2
      [mainItem, ⟨config.authorText, centerX, authorY⟩]

/-- **C10.** The text layer draws the author text only when the main text is
non-empty: with an empty `mainText`, nothing is drawn at all — neither main nor
author text — even when `authorText` is non-empty. -/
theorem text_layer_requires_main (w h : ℚ) (config : TextConfig)
    (hmain : config.mainText = "") :
    drawText w h config = [] := by
  rw [drawText]
  simp only [hmain, if_pos]

/-- Witness for C10: a configuration with empty main text and non-empty author
text draws nothing. -/
theorem text_layer_requires_main_witness :
    (TextConfig.mainText ⟨"", "#FFFFFF", 5, "Arial", true, false, 1, 150,
        "by Sound Fold Studio", "#DDDDDD", 5 / 2, "Arial", false, true, 1, 10⟩
      = "") ∧
    drawText 1280 720 ⟨"", "#FFFFFF", 5, "Arial", true, false, 1, 150,
        "by Sound Fold Studio", "#DDDDDD", 5 / 2, "Arial", false, true, 1, 10⟩
      = [] :=
  ⟨rfl, text_layer_requires_main 1280 720 _ rfl⟩
